import Mathlib

/-!
Verification of the grouping and reader-rotation engine of the
group-schedular repository (`lib/grouping.ts`).

The definitions below are a shallow embedding of the TypeScript source:

* weekly enums `AttendanceStatus` / `ReadingStatus` and the `Participant`
  record (contact fields that the engine never inspects are omitted);
* the roster filters `isAttending`, `readingStatus`,
  `isSchedulableThisWeek`;
* the comparator `sortByFirstName` (JavaScript string `<` is
  code-unit-lexicographic comparison, embedded as `cmpCharList` over the
  characters of the string; `String.prototype.toLowerCase` is embedded as
  character-wise `Char.toLower`; `Array.prototype.sort` is stable, embedded
  as `List.insertionSort`, which is stable);
* the per-group rotation engine `assignReadersForGroup` (the mutable
  cursor/`picked`-set loop is embedded as explicit state passing, with the
  scan counter of `takeNextNotConfirmed` as structural fuel — the source
  loop scans at most `n` slots, and the fill loops run at most quota
  steps);
* the circular windowing primitive `takeWithWrap` of the roster-view
  variant of the file;
* `makeGroups`, parameterised by the shuffle outcome: the source shuffles
  with a process-wide random source; here the shuffle is an explicit
  function argument `sh`, and theorems quantify over all permutations,
  i.e. over all outcomes Fisher–Yates can produce.

JavaScript `%` on numbers is the truncating remainder, embedded as
`Int.tmod`; the source normalises indices with `((i % n) + n) % n`,
embedded as `jsModNat`.
-/

inductive AttendanceStatus
  | unknown
  | yes
  | no
  | maybe
deriving DecidableEq

inductive ReadingStatus
  | unassigned
  | pending
  | confirmed
  | deferred
deriving DecidableEq

/-- The participant record. `email`, `phone_number`, `responded_at` are
never inspected by the engine and omitted; `has_reading` is kept because
the type declares it (the engine does not read it). -/
structure Participant where
  id : Int
  name : String
  has_reading : Bool
  attendance : Option AttendanceStatus
  reading : Option ReadingStatus
deriving DecidableEq

/-- Helper to build participants concisely in examples. -/
def mkP (id : Int) (name : String) (att : Option AttendanceStatus)
    (rd : Option ReadingStatus) : Participant :=
  { id := id, name := name, has_reading := false, attendance := att, reading := rd }

/-- Embeds `name.trim().split(/\s+/)[0] ?? ''`: the first maximal run of
non-whitespace characters (empty for all-whitespace input). -/
def getFirstName (name : String) : String :=
  ⟨(name.data.dropWhile Char.isWhitespace).takeWhile (fun c => !c.isWhitespace)⟩

/-- Embeds `String.prototype.toLowerCase` character-wise. -/
def lowerStr (s : String) : String :=
  ⟨s.data.map Char.toLower⟩

/-- Lexicographic comparison of character lists by code point; this is the
semantics of JavaScript `<` on strings. -/
def cmpCharList : List Char → List Char → Ordering
  | [], [] => .eq
  | [], _ :: _ => .lt
  | _ :: _, [] => .gt
  | a :: as, b :: bs =>
    if a.toNat < b.toNat then .lt
    else if b.toNat < a.toNat then .gt
    else cmpCharList as bs

/-- String comparison: `if a < b then -1 else if a > b then 1 else 0`. -/
def cmpStr (a b : String) : Ordering :=
  cmpCharList a.data b.data

/-- Integer comparison: `a - b` collapsed to its sign. -/
def cmpInt (a b : Int) : Ordering :=
  if a < b then .lt else if b < a then .gt else .eq

/-- The comparator `sortByFirstName`: lower-cased first name, then
lower-cased full name, then `a.id - b.id`. `Ordering.then` is exactly the
early-return chain of the source. -/
def sortByFirstName (a b : Participant) : Ordering :=
  (cmpStr (lowerStr (getFirstName a.name)) (lowerStr (getFirstName b.name))).then
    ((cmpStr (lowerStr a.name) (lowerStr b.name)).then (cmpInt a.id b.id))

/-- The non-strict order induced by the comparator: `sortByFirstName a b ≤ 0`. -/
def sbfnP (a b : Participant) : Prop :=
  sortByFirstName a b ≠ .gt

instance : DecidableRel sbfnP :=
  fun _ _ => inferInstanceAs (Decidable (_ ≠ _))

/-- Embeds `.slice().sort(sortByFirstName)`: a stable sort under the
comparator. -/
def sortRoster (l : List Participant) : List Participant :=
  l.insertionSort sbfnP

/-- Embeds `(p.attendance ?? 'unknown') !== 'no'`: seated unless
explicitly `no`. -/
def isAttending (p : Participant) : Bool :=
  p.attendance.getD .unknown != .no

/-- Embeds `p.reading ?? 'unassigned'`. -/
def readingStatus (p : Participant) : ReadingStatus :=
  p.reading.getD .unassigned

/-- Embeds `isSchedulableThisWeek`: attending and not deferred. -/
def isSchedulableThisWeek (p : Participant) : Bool :=
  isAttending p && readingStatus p != .deferred

/-- Embeds the "up next" logic: the first attending pending member, else the
first (in sorted order) schedulable non-confirmed member, else none. -/
def getUpNext (groupMembers : List Participant) : Option Participant :=
  let attendingMembers := groupMembers.filter isAttending
  match attendingMembers.find? (fun p => readingStatus p == .pending) with
  | some pending => some pending
  | none =>
    (sortRoster ((attendingMembers.filter isSchedulableThisWeek).filter
      (fun p => readingStatus p != .confirmed))).head?

/-- The rotation roster of a group: schedulable members, alphabetical. -/
def groupRoster (groupMembers : List Participant) : List Participant :=
  sortRoster (groupMembers.filter isSchedulableThisWeek)

/-- The `confirmed` partition of the roster. -/
def confirmedOf (groupMembers : List Participant) : List Participant :=
  (groupRoster groupMembers).filter (fun p => readingStatus p == .confirmed)

/-- The `notConfirmed` partition of the roster. -/
def notConfirmedOf (groupMembers : List Participant) : List Participant :=
  (groupRoster groupMembers).filter (fun p => readingStatus p != .confirmed)

/-- Embeds `((i % n) + n) % n` for a JavaScript number `i` (`%` is the
truncating remainder `Int.tmod`); the result is a valid index below `n`. -/
def jsModNat (k : Int) (n : Nat) : Nat :=
  (((k.tmod n) + n).tmod n).toNat

/-- One call of the source closure `takeNextNotConfirmed`: scan the
circular list from slot `i`, skipping already-picked ids, for at most
`scan` steps (the source bounds the scan by `n`). Returns the person,
the advanced cursor and the grown picked set. -/
def takeNextNotConfirmed (notConfirmed : List Participant) :
    Nat → Nat → List Int → Option (Participant × Nat × List Int)
  | 0, _, _ => none
  | scan + 1, i, picked =>
    match notConfirmed[i]? with
    | none => none
    | some p =>
      if picked.contains p.id then
        takeNextNotConfirmed notConfirmed scan ((i + 1) % notConfirmed.length) picked
      else
        some (p, (i + 1) % notConfirmed.length, p.id :: picked)

/-- State left by a fill loop: the taken people, the cursor, the picked
ids. -/
structure FillResult where
  out : List Participant
  idx : Nat
  picked : List Int
deriving DecidableEq

/-- Embeds a `while (list.length < quota) { const p = takeNextNotConfirmed();
if (!p) break; list.push(p) }` loop, `k` being the number of still-open
slots. -/
def fillFromRotation (notConfirmed : List Participant) :
    Nat → Nat → List Int → FillResult
  | 0, i, picked => ⟨[], i, picked⟩
  | k + 1, i, picked =>
    match takeNextNotConfirmed notConfirmed notConfirmed.length i picked with
    | none => ⟨[], i, picked⟩
    | some (p, i1, picked1) =>
      let r := fillFromRotation notConfirmed k i1 picked1
      ⟨p :: r.out, r.idx, r.picked⟩

/-- The reader selection of one group together with the next cursor. -/
structure AssignResult where
  scheduled : List Participant
  bonus : List Participant
  nextStartIndex : Int
deriving DecidableEq

/-- The trailing cursor computation of `assignReadersForGroup`: one past
the last non-confirmed person that was scheduled (located by id in
`notConfirmed`), the input `startIndex` when there is none. -/
def nextStartIndexOf (notConfirmed scheduled : List Participant)
    (startIndex : Int) : Int :=
  match scheduled.reverse.find? (fun p => readingStatus p != .confirmed) with
  | none => startIndex
  | some lastFromRotation =>
    match notConfirmed.findIdx? (fun p => p.id == lastFromRotation.id) with
    | none => startIndex
    | some lastIdx => ((lastIdx + 1) % notConfirmed.length : Nat)

/-- The `scheduled` list after the confirmed pass: confirmed people in
roster order, up to the scheduled quota. -/
def scheduled0Of (groupMembers : List Participant) (scheduledQuota : Nat) :
    List Participant :=
  (confirmedOf groupMembers).take scheduledQuota

/-- The state of the rotation walk after filling the remaining scheduled
slots: it starts at the normalised start index with the confirmed picks
already marked as picked. -/
def fillSOf (groupMembers : List Participant) (startIndex : Int)
    (scheduledQuota : Nat) : FillResult :=
  fillFromRotation (notConfirmedOf groupMembers)
    (scheduledQuota - (scheduled0Of groupMembers scheduledQuota).length)
    (jsModNat startIndex (notConfirmedOf groupMembers).length)
    ((scheduled0Of groupMembers scheduledQuota).map (·.id))

/-- The full `scheduled` list: the confirmed pass followed by the rotation
fill. -/
def scheduledOf (groupMembers : List Participant) (startIndex : Int)
    (scheduledQuota : Nat) : List Participant :=
  scheduled0Of groupMembers scheduledQuota ++
    (fillSOf groupMembers startIndex scheduledQuota).out

/-- The `bonus` list: the same rotation walk continued for the bonus
quota. -/
def bonusOf (groupMembers : List Participant) (startIndex : Int)
    (scheduledQuota bonusQuota : Nat) : List Participant :=
  (fillFromRotation (notConfirmedOf groupMembers) bonusQuota
    (fillSOf groupMembers startIndex scheduledQuota).idx
    (fillSOf groupMembers startIndex scheduledQuota).picked).out

/-- Embeds `assignReadersForGroup`: confirmed people first (up to the
scheduled quota), then rotation through `notConfirmed` from the normalised
start index fills the remaining scheduled slots and then the bonus slots;
the next start index points one past the last non-confirmed person that
was scheduled, and is `0` when `notConfirmed` is empty, and the input
`startIndex` when no non-confirmed person was scheduled. The stages of
the source body are the named functions above. -/
def assignReadersForGroup (groupMembers : List Participant) (startIndex : Int)
    (scheduledQuota bonusQuota : Nat) : AssignResult :=
  if (notConfirmedOf groupMembers).length = 0 then
    { scheduled := scheduled0Of groupMembers scheduledQuota, bonus := [],
      nextStartIndex := 0 }
  else
    { scheduled := scheduledOf groupMembers startIndex scheduledQuota,
      bonus := bonusOf groupMembers startIndex scheduledQuota bonusQuota,
      nextStartIndex := nextStartIndexOf (notConfirmedOf groupMembers)
        (scheduledOf groupMembers startIndex scheduledQuota) startIndex }

/-- Embeds `takeWithWrap` of the roster-view variant: up to `count`
elements starting at the normalised start index, wrapping circularly,
stopping after `list.length` elements. The loop body is `go`, with the
remaining push budget `min count n` as fuel and the current slot as
state. -/
def takeWithWrapGo (list : List α) : Nat → Nat → List α
  | _, 0 => []
  | idx, m + 1 =>
    match list[idx]? with
    | none => []
    | some x => x :: takeWithWrapGo list ((idx + 1) % list.length) m

/-- Embeds `takeWithWrap(list, startIndex, count)`. -/
def takeWithWrap (list : List α) (startIndex : Int) (count : Int) : List α :=
  let n := list.length
  if n = 0 ∨ count ≤ 0 then []
  else takeWithWrapGo list (jsModNat startIndex n) (min count.toNat n)

/-- The persisted cursor pair. -/
structure RotationState where
  tableStartIndex : Int
  loungeStartIndex : Int
deriving DecidableEq

/-- The reader lists of one seating group. -/
structure GroupReaders where
  scheduled : List Participant
  bonus : List Participant
deriving DecidableEq

/-- The result of `makeGroups` (the nested readers/upNext objects are
flattened into fields). -/
structure GroupResult where
  table : List Participant
  lounge : List Participant
  error : Option String
  readersTable : GroupReaders
  readersLounge : GroupReaders
  upNextTable : Option Participant
  upNextLounge : Option Participant
deriving DecidableEq

/-- Embeds the alternate dealing of the shuffled attendees into the two
seating buckets, the lounge preferentially receiving ties. -/
def dealIntoGroups : List Participant → List Participant × List Participant →
    List Participant × List Participant
  | [], acc => acc
  | p :: rest, (lounge, table) =>
    if lounge.length ≤ table.length then dealIntoGroups rest (lounge ++ [p], table)
    else dealIntoGroups rest (lounge, table ++ [p])

/-- Embeds `makeGroups`: seating is all attending participants; with zero
attendees a well-formed empty result carrying an error string; with at most
8 attendees a single (shuffled) table group; otherwise a shuffled balanced
two-way split. Readers and up-next are computed per group. `sh` is the
shuffle outcome (the source draws it from `Math.random`). -/
def makeGroups (sh : List Participant → List Participant)
    (participants : List Participant) (rotation : Option RotationState) : GroupResult :=
  let seated := participants.filter isAttending
  let total := seated.length
  let tableStartIndex := (rotation.map (·.tableStartIndex)).getD 0
  let loungeStartIndex := (rotation.map (·.loungeStartIndex)).getD 0
  if total = 0 then
    { table := [], lounge := [],
      error := some "No attendees for this week.",
      readersTable := ⟨[], []⟩, readersLounge := ⟨[], []⟩,
      upNextTable := none, upNextLounge := none }
  else if total ≤ 8 then
    let table := sh seated
    let tableReaders := assignReadersForGroup table tableStartIndex 4 2
    { table := table, lounge := [],
      error := none,
      readersTable := ⟨tableReaders.scheduled, tableReaders.bonus⟩,
      readersLounge := ⟨[], []⟩,
      upNextTable := getUpNext table, upNextLounge := none }
  else
    let shuffled := sh seated
    let split := dealIntoGroups shuffled ([], [])
    let lounge := split.1
    let table := split.2
    let tableReaders := assignReadersForGroup table tableStartIndex 4 2
    let loungeReaders := assignReadersForGroup lounge loungeStartIndex 4 2
    { table := table, lounge := lounge,
      error := none,
      readersTable := ⟨tableReaders.scheduled, tableReaders.bonus⟩,
      readersLounge := ⟨loungeReaders.scheduled, loungeReaders.bonus⟩,
      upNextTable := getUpNext table, upNextLounge := getUpNext lounge }

def tAlice : Participant := mkP 1 "Alice" (some .yes) (some .unassigned)
def tBob : Participant := mkP 2 "Bob" (some .yes) (some .confirmed)
def tCarol : Participant := mkP 3 "Carol" (some .yes) (some .deferred)
def tDave : Participant := mkP 4 "Dave" (some .yes) (some .unassigned)
def tEve : Participant := mkP 5 "Eve" (some .yes) (some .pending)

example :
    assignReadersForGroup [tAlice, tBob, tCarol, tDave, tEve] 0 4 2 =
      ⟨[tBob, tAlice, tDave, tEve], [], 0⟩ := by decide

example : getUpNext [tAlice, tBob, tCarol, tDave, tEve] = some tEve := by decide

/-! ### Order theory of the comparator -/

theorem charToNat_injective {a b : Char} (h : a.toNat = b.toNat) : a = b := by
  apply Char.ext
  apply UInt32.ext
  simpa [Char.toNat] using h

theorem cmpCharList_eq_iff : ∀ {a b : List Char}, cmpCharList a b = .eq ↔ a = b
  | [], [] => by simp [cmpCharList]
  | [], _ :: _ => by simp [cmpCharList]
  | _ :: _, [] => by simp [cmpCharList]
  | x :: xs, y :: ys => by
    simp only [cmpCharList]
    split
    · next hlt =>
      constructor
      · intro h; cases h
      · rintro ⟨⟩; omega
    · split
      · next h1 h2 =>
        constructor
        · intro h; cases h
        · rintro ⟨⟩; omega
      · next h1 h2 =>
        have hxy : x = y := charToNat_injective (by omega)
        subst hxy
        rw [cmpCharList_eq_iff]
        simp

theorem cmpCharList_swap : ∀ (a b : List Char), cmpCharList b a = (cmpCharList a b).swap
  | [], [] => rfl
  | [], _ :: _ => rfl
  | _ :: _, [] => rfl
  | x :: xs, y :: ys => by
    simp only [cmpCharList]
    split_ifs <;> first
      | rfl
      | omega
      | exact cmpCharList_swap xs ys

theorem cmpCharList_lt_trans :
    ∀ {a b c : List Char}, cmpCharList a b = .lt → cmpCharList b c = .lt →
      cmpCharList a c = .lt
  | [], [], _, h1, _ => by simp [cmpCharList] at h1
  | [], _ :: _, [], _, h2 => by simp [cmpCharList] at h2
  | [], _ :: _, _ :: _, _, _ => by simp [cmpCharList]
  | _ :: _, [], _, h1, _ => by simp [cmpCharList] at h1
  | _ :: _, _ :: _, [], _, h2 => by simp [cmpCharList] at h2
  | x :: xs, y :: ys, z :: zs, h1, h2 => by
    simp only [cmpCharList] at h1 h2 ⊢
    split_ifs at h1 h2 ⊢ <;> first
      | rfl
      | omega
      | exact cmpCharList_lt_trans h1 h2

theorem cmpStr_eq_iff {a b : String} : cmpStr a b = .eq ↔ a = b := by
  unfold cmpStr
  rw [cmpCharList_eq_iff]
  constructor
  · intro h
    cases a
    cases b
    exact congrArg String.mk h
  · intro h
    rw [h]

theorem cmpStr_swap (a b : String) : cmpStr b a = (cmpStr a b).swap :=
  cmpCharList_swap _ _

theorem cmpStr_lt_trans {a b c : String} (h1 : cmpStr a b = .lt)
    (h2 : cmpStr b c = .lt) : cmpStr a c = .lt :=
  cmpCharList_lt_trans h1 h2

theorem cmpStr_refl (a : String) : cmpStr a a = .eq := cmpStr_eq_iff.mpr rfl

theorem cmpInt_eq_iff {a b : Int} : cmpInt a b = .eq ↔ a = b := by
  unfold cmpInt
  rcases Int.lt_trichotomy a b with h | h | h
  · rw [if_pos h]
    constructor
    · intro hh; cases hh
    · intro hh; omega
  · subst h
    rw [if_neg (by omega), if_neg (by omega)]
    simp
  · rw [if_neg (by omega), if_pos h]
    constructor
    · intro hh; cases hh
    · intro hh; omega

theorem cmpInt_swap (a b : Int) : cmpInt b a = (cmpInt a b).swap := by
  unfold cmpInt
  split_ifs <;> first | rfl | omega

theorem ordering_then_ne_gt_iff (o1 o2 : Ordering) :
    o1.then o2 ≠ .gt ↔ o1 = .lt ∨ (o1 = .eq ∧ o2 ≠ .gt) := by
  cases o1 <;> simp [Ordering.then]

theorem ordering_then_swap (o1 o2 : Ordering) :
    (o1.then o2).swap = o1.swap.then o2.swap := by
  cases o1 <;> rfl

theorem sortByFirstName_swap (a b : Participant) :
    sortByFirstName b a = (sortByFirstName a b).swap := by
  unfold sortByFirstName
  rw [cmpStr_swap, cmpStr_swap (lowerStr a.name), cmpInt_swap, ordering_then_swap,
    ordering_then_swap]

theorem sbfnP_iff {a b : Participant} :
    sbfnP a b ↔
      cmpStr (lowerStr (getFirstName a.name)) (lowerStr (getFirstName b.name)) = .lt ∨
      (lowerStr (getFirstName a.name) = lowerStr (getFirstName b.name) ∧
        (cmpStr (lowerStr a.name) (lowerStr b.name) = .lt ∨
          (lowerStr a.name = lowerStr b.name ∧ a.id ≤ b.id))) := by
  unfold sbfnP sortByFirstName
  rw [ordering_then_ne_gt_iff, ordering_then_ne_gt_iff, cmpStr_eq_iff, cmpStr_eq_iff]
  constructor
  · rintro (h | ⟨h1, h2 | ⟨h3, h4⟩⟩)
    · exact Or.inl h
    · exact Or.inr ⟨h1, Or.inl h2⟩
    · refine Or.inr ⟨h1, Or.inr ⟨h3, ?_⟩⟩
      unfold cmpInt at h4
      by_cases hlt : a.id < b.id
      · omega
      · rw [if_neg hlt] at h4
        by_cases hgt : b.id < a.id
        · rw [if_pos hgt] at h4; simp at h4
        · omega
  · rintro (h | ⟨h1, h2 | ⟨h3, h4⟩⟩)
    · exact Or.inl h
    · exact Or.inr ⟨h1, Or.inl h2⟩
    · refine Or.inr ⟨h1, Or.inr ⟨h3, ?_⟩⟩
      unfold cmpInt
      by_cases hlt : a.id < b.id
      · rw [if_pos hlt]; simp
      · rw [if_neg hlt, if_neg (by omega)]; simp

instance : IsTotal Participant sbfnP := by
  constructor
  intro a b
  by_cases h : sortByFirstName a b = .gt
  · right
    unfold sbfnP
    rw [sortByFirstName_swap, h]
    simp [Ordering.swap]
  · left
    exact h

instance : IsTrans Participant sbfnP := by
  constructor
  intro a b c hab hbc
  rw [sbfnP_iff] at hab hbc ⊢
  rcases hab with h1 | ⟨e1, hab2⟩
  · rcases hbc with h2 | ⟨e2, _⟩
    · exact Or.inl (cmpStr_lt_trans h1 h2)
    · rw [e2] at h1; exact Or.inl h1
  · rcases hbc with h2 | ⟨e2, hbc2⟩
    · rw [e1]; exact Or.inl h2
    · refine Or.inr ⟨e1.trans e2, ?_⟩
      rcases hab2 with h3 | ⟨e3, hid1⟩
      · rcases hbc2 with h4 | ⟨e4, _⟩
        · exact Or.inl (cmpStr_lt_trans h3 h4)
        · rw [e4] at h3; exact Or.inl h3
      · rcases hbc2 with h4 | ⟨e4, hid2⟩
        · rw [e3]; exact Or.inl h4
        · exact Or.inr ⟨e3.trans e4, le_trans hid1 hid2⟩

/-- Mutual `≤` under the comparator forces equal ids. -/
theorem sbfnP_antisymm_ids {a b : Participant} (hab : sbfnP a b) (hba : sbfnP b a) :
    a.id = b.id := by
  rw [sbfnP_iff] at hab hba
  rcases hab with h1 | ⟨e1, hab2⟩
  · rcases hba with h2 | ⟨e2, _⟩
    · have := cmpStr_lt_trans h1 h2
      rw [cmpStr_refl] at this; cases this
    · rw [e2] at h1; rw [cmpStr_refl] at h1; cases h1
  · rcases hba with h2 | ⟨e2, hba2⟩
    · rw [e1] at h2; rw [cmpStr_refl] at h2; cases h2
    · rcases hab2 with h3 | ⟨e3, hid1⟩
      · rcases hba2 with h4 | ⟨e4, _⟩
        · have := cmpStr_lt_trans h3 h4
          rw [cmpStr_refl] at this; cases this
        · rw [e4] at h3; rw [cmpStr_refl] at h3; cases h3
      · rcases hba2 with h4 | ⟨e4, hid2⟩
        · rw [e3] at h4; rw [cmpStr_refl] at h4; cases h4
        · omega

/-! ### Sorting lemmas -/

theorem sbfnP_refl (a : Participant) : sbfnP a a := by
  rw [sbfnP_iff]
  exact Or.inr ⟨rfl, Or.inr ⟨rfl, le_refl _⟩⟩

theorem sortRoster_perm (l : List Participant) : (sortRoster l).Perm l :=
  List.perm_insertionSort _ _

theorem sortRoster_sorted (l : List Participant) : (sortRoster l).Sorted sbfnP :=
  List.sorted_insertionSort _ _

/-- Two sorted lists that are permutations of each other and have pairwise
distinct ids are equal: the comparator is antisymmetric on such lists. -/
theorem sorted_eq_of_perm :
    ∀ {l1 l2 : List Participant}, l1.Perm l2 → l1.Sorted sbfnP → l2.Sorted sbfnP →
      (l1.map (·.id)).Nodup → l1 = l2
  | [], l2, h, _, _, _ => (h.symm.eq_nil).symm
  | a :: t1, [], h, _, _, _ => by
    have := h.length_eq
    simp at this
  | a :: t1, b :: t2, h, s1, s2, hid => by
    have hbmem : b ∈ a :: t1 := h.mem_iff.mpr (by simp)
    have hamem : a ∈ b :: t2 := h.mem_iff.mp (by simp)
    have hab : sbfnP a b := by
      rcases List.mem_cons.mp hbmem with h' | hb
      · rw [h']; exact sbfnP_refl _
      · exact List.rel_of_sorted_cons s1 b hb
    have hba : sbfnP b a := by
      rcases List.mem_cons.mp hamem with h' | ha
      · rw [h']; exact sbfnP_refl _
      · exact List.rel_of_sorted_cons s2 a ha
    have heq : a = b := by
      have hidab : a.id = b.id := sbfnP_antisymm_ids hab hba
      have hbmem1 : b ∈ a :: t1 := hbmem
      exact List.inj_on_of_nodup_map hid (by simp) hbmem1 hidab
    subst heq
    have ht : t1.Perm t2 := h.cons_inv
    have := sorted_eq_of_perm ht (List.sorted_cons.mp s1).2 (List.sorted_cons.mp s2).2
      (by simpa using (List.nodup_cons.mp (by simpa using hid)).2)
    rw [this]

/-- Sorting is invariant under permutation of the input when ids are
pairwise distinct. -/
theorem sortRoster_eq_of_perm {l1 l2 : List Participant} (h : l1.Perm l2)
    (hid : (l1.map (·.id)).Nodup) : sortRoster l1 = sortRoster l2 := by
  apply sorted_eq_of_perm
  · exact (sortRoster_perm l1).trans (h.trans (sortRoster_perm l2).symm)
  · exact sortRoster_sorted l1
  · exact sortRoster_sorted l2
  · exact (((sortRoster_perm l1).map (·.id)).symm.nodup) hid

/-! ### Index normalisation -/

theorem tmod_gt_neg (k : Int) (n : Nat) (hn : 0 < n) : -(n : Int) < k.tmod n := by
  cases k with
  | ofNat m =>
    have h : (Int.ofNat m).tmod (Int.ofNat n) = Int.ofNat (m % n) := rfl
    rw [show ((n : Nat) : Int) = Int.ofNat n from rfl, h]
    simp only [Int.ofNat_eq_natCast]
    omega
  | negSucc m =>
    have h : (Int.negSucc m).tmod (Int.ofNat n) = -Int.ofNat ((m + 1) % n) := rfl
    rw [show ((n : Nat) : Int) = Int.ofNat n from rfl, h]
    simp only [Int.ofNat_eq_natCast]
    have := Nat.mod_lt (m + 1) hn
    omega

theorem jsModNat_eq_emod (k : Int) (n : Nat) (hn : 0 < n) :
    (jsModNat k n : Int) = k % n := by
  unfold jsModNat
  have hn' : (0 : Int) < n := by exact_mod_cast hn
  have h1 : k.tmod n < n := Int.tmod_lt_of_pos k hn'
  have h2 : -(n : Int) < k.tmod n := tmod_gt_neg k n hn
  rw [Int.tmod_eq_emod (by omega) (by omega)]
  have h3 : (k.tmod n + n) % n = k.tmod n % n := by
    have := Int.add_mul_emod_self_left (k.tmod n) n 1
    rw [mul_one] at this
    exact this
  have h4 : k.tmod n % n = k % n := by
    rw [Int.tmod_def, sub_eq_add_neg, ← mul_neg]
    exact Int.add_mul_emod_self_left k n (-(k.tdiv n))
  rw [h3, h4]
  exact Int.toNat_of_nonneg (Int.emod_nonneg k (by omega))

theorem jsModNat_lt (k : Int) (n : Nat) (hn : 0 < n) : jsModNat k n < n := by
  have h1 := jsModNat_eq_emod k n hn
  have h2 : k % n < n := Int.emod_lt_of_pos k (by exact_mod_cast hn)
  omega

/-! ### Rotation-fill lemmas -/

theorem takeNextNotConfirmed_spec {nc : List Participant} :
    ∀ {fuel i picked p i1 picked1},
      takeNextNotConfirmed nc fuel i picked = some (p, i1, picked1) →
        p ∈ nc ∧ p.id ∉ picked ∧ picked1 = p.id :: picked := by
  intro fuel
  induction fuel with
  | zero =>
    intro i picked p i1 picked1 h
    simp [takeNextNotConfirmed] at h
  | succ fuel ih =>
    intro i picked p i1 picked1 h
    rw [takeNextNotConfirmed] at h
    cases hq : nc[i]? with
    | none => simp [hq] at h
    | some q =>
      simp only [hq] at h
      by_cases hc : picked.contains q.id
      · rw [if_pos hc] at h
        exact ih h
      · rw [if_neg hc] at h
        cases h
        refine ⟨List.getElem?_mem hq, ?_, rfl⟩
        intro hmem
        exact hc (List.elem_iff.mpr hmem)

theorem fillFromRotation_spec {nc : List Participant} :
    ∀ {k i picked},
      (∀ p ∈ (fillFromRotation nc k i picked).out, p ∈ nc ∧ p.id ∉ picked) ∧
      ((fillFromRotation nc k i picked).out.map (·.id)).Nodup ∧
      (∀ x ∈ picked, x ∈ (fillFromRotation nc k i picked).picked) ∧
      (∀ p ∈ (fillFromRotation nc k i picked).out,
        p.id ∈ (fillFromRotation nc k i picked).picked) := by
  intro k
  induction k with
  | zero =>
    intro i picked
    simp [fillFromRotation]
  | succ k ih =>
    intro i picked
    rw [fillFromRotation]
    cases ht : takeNextNotConfirmed nc nc.length i picked with
    | none => simp
    | some v =>
      obtain ⟨p, i1, picked1⟩ := v
      obtain ⟨hpnc, hpnp, hpicked1⟩ := takeNextNotConfirmed_spec ht
      subst hpicked1
      simp only
      obtain ⟨ih1, ih2, ih3, ih4⟩ := @ih i1 (p.id :: picked)
      refine ⟨?_, ?_, ?_, ?_⟩
      · intro q hq
        rcases List.mem_cons.mp hq with rfl | hq
        · exact ⟨hpnc, hpnp⟩
        · obtain ⟨h1, h2⟩ := ih1 q hq
          exact ⟨h1, fun hx => h2 (List.mem_cons_of_mem _ hx)⟩
      · rw [List.map_cons, List.nodup_cons]
        refine ⟨?_, ih2⟩
        intro hmem
        obtain ⟨q, hq, hqid⟩ := List.mem_map.mp hmem
        obtain ⟨_, h2⟩ := ih1 q hq
        exact h2 (by rw [hqid]; exact List.mem_cons_self _ _)
      · intro x hx
        exact ih3 x (List.mem_cons_of_mem _ hx)
      · intro q hq
        rcases List.mem_cons.mp hq with rfl | hq
        · exact ih3 _ (List.mem_cons_self _ _)
        · exact ih4 q hq

/-! ### Roster membership lemmas -/

theorem mem_groupRoster {g : List Participant} {p : Participant} :
    p ∈ groupRoster g ↔ p ∈ g ∧ isSchedulableThisWeek p = true := by
  unfold groupRoster
  rw [(sortRoster_perm _).mem_iff, List.mem_filter]

theorem mem_confirmedOf {g : List Participant} {p : Participant} :
    p ∈ confirmedOf g ↔
      p ∈ g ∧ isSchedulableThisWeek p = true ∧ readingStatus p = .confirmed := by
  unfold confirmedOf
  rw [List.mem_filter, mem_groupRoster, beq_iff_eq, and_assoc]

theorem mem_notConfirmedOf {g : List Participant} {p : Participant} :
    p ∈ notConfirmedOf g ↔
      p ∈ g ∧ isSchedulableThisWeek p = true ∧ readingStatus p ≠ .confirmed := by
  unfold notConfirmedOf
  rw [List.mem_filter, mem_groupRoster, bne_iff_ne, and_assoc]

theorem nodup_ids_groupRoster {g : List Participant}
    (h : (g.map (·.id)).Nodup) : ((groupRoster g).map (·.id)).Nodup := by
  unfold groupRoster
  have h1 : ((g.filter isSchedulableThisWeek).map (·.id)).Nodup :=
    ((List.filter_sublist g).map (·.id)).nodup h
  exact (((sortRoster_perm _).map (·.id)).symm.nodup) h1

theorem nodup_ids_confirmedOf {g : List Participant}
    (h : (g.map (·.id)).Nodup) : ((confirmedOf g).map (·.id)).Nodup :=
  (List.Sublist.map (fun p : Participant => p.id)
    (List.filter_sublist (groupRoster g))).nodup (nodup_ids_groupRoster h)

theorem nodup_ids_notConfirmedOf {g : List Participant}
    (h : (g.map (·.id)).Nodup) : ((notConfirmedOf g).map (·.id)).Nodup :=
  (List.Sublist.map (fun p : Participant => p.id)
    (List.filter_sublist (groupRoster g))).nodup (nodup_ids_groupRoster h)

theorem find?_eq_head?_filter (p : α → Bool) :
    ∀ l : List α, l.find? p = (l.filter p).head?
  | [] => rfl
  | a :: t => by
    by_cases h : p a
    · rw [List.find?_cons_of_pos _ h, List.filter_cons_of_pos h]
      rfl
    · rw [List.find?_cons_of_neg _ h, List.filter_cons_of_neg h]
      exact find?_eq_head?_filter p t

/-- In a list with pairwise distinct ids, the first index whose id matches
the id of the element at position `j` is `j` itself. -/
theorem findIdx_id_of_nodup {nc : List Participant}
    (hid : (nc.map (·.id)).Nodup) {j : Nat} {p : Participant}
    (hj : nc[j]? = some p) :
    nc.findIdx? (fun x => x.id == p.id) = some j := by
  have hjlt : j < nc.length := by
    rcases Nat.lt_or_ge j nc.length with h | h
    · exact h
    · rw [List.getElem?_eq_none h] at hj
      cases hj
  have hpj : nc[j] = p := by
    rw [List.getElem?_eq_getElem hjlt] at hj
    exact Option.some.inj hj
  rw [List.findIdx?_eq_some_iff_getElem]
  refine ⟨hjlt, ?_, ?_⟩
  · simp [hpj]
  · intro j2 hj2 habs
    have h1 : nc[j2].id = p.id := beq_iff_eq.mp (by simpa using habs)
    have h2 : nc[j2] = nc[j] := by
      refine List.inj_on_of_nodup_map hid ?_ ?_ ?_
      · exact List.getElem_mem _
      · exact List.getElem_mem _
      · rw [h1, hpj]
    have h3 : j2 = j := (List.Nodup.getElem_inj_iff (hid.of_map _)).mp h2
    omega

/-! ### Stage lemmas for the rotation engine -/

theorem fillSOf_spec (g : List Participant) (k : Int) (q : Nat) :
    (∀ p ∈ (fillSOf g k q).out,
      p ∈ notConfirmedOf g ∧ p.id ∉ (scheduled0Of g q).map (·.id)) ∧
    ((fillSOf g k q).out.map (·.id)).Nodup ∧
    (∀ x ∈ (scheduled0Of g q).map (·.id), x ∈ (fillSOf g k q).picked) ∧
    (∀ p ∈ (fillSOf g k q).out, p.id ∈ (fillSOf g k q).picked) :=
  fillFromRotation_spec

theorem bonusOf_spec (g : List Participant) (k : Int) (q b : Nat) :
    (∀ p ∈ bonusOf g k q b,
      p ∈ notConfirmedOf g ∧ p.id ∉ (fillSOf g k q).picked) ∧
    ((bonusOf g k q b).map (·.id)).Nodup :=
  ⟨fillFromRotation_spec.1, fillFromRotation_spec.2.1⟩

theorem scheduled0Of_mem {g : List Participant} {q : Nat} {p : Participant}
    (hp : p ∈ scheduled0Of g q) : p ∈ confirmedOf g :=
  (List.take_sublist q (confirmedOf g)).subset hp

/-! ### C10 -/

/-- C10: for every group and every integer input start index, the
`nextStartIndex` returned by `assignReadersForGroup` is either the input
start index, or `0`, or lies in `[0, n)` where `n` is the length of the
`notConfirmed` list. -/
theorem assignReaders_nextStartIndex_range (g : List Participant) (k : Int)
    (q b : Nat) :
    (assignReadersForGroup g k q b).nextStartIndex = k ∨
    (assignReadersForGroup g k q b).nextStartIndex = 0 ∨
    (0 ≤ (assignReadersForGroup g k q b).nextStartIndex ∧
      (assignReadersForGroup g k q b).nextStartIndex <
        ((notConfirmedOf g).length : Int)) := by
  rw [assignReadersForGroup]
  by_cases hn : (notConfirmedOf g).length = 0
  · rw [if_pos hn]
    exact Or.inr (Or.inl rfl)
  · rw [if_neg hn]
    show nextStartIndexOf _ _ _ = k ∨ nextStartIndexOf _ _ _ = 0 ∨ _
    unfold nextStartIndexOf
    cases hfind : (scheduledOf g k q).reverse.find?
        (fun p => readingStatus p != .confirmed) with
    | none => exact Or.inl rfl
    | some pl =>
      simp only [hfind]
      cases hidx : (notConfirmedOf g).findIdx? (fun p => p.id == pl.id) with
      | none => exact Or.inl rfl
      | some j =>
        simp only [hidx]
        right
        right
        have hlt : (j + 1) % (notConfirmedOf g).length < (notConfirmedOf g).length :=
          Nat.mod_lt _ (Nat.pos_of_ne_zero hn)
        constructor
        · exact_mod_cast Nat.zero_le _
        · exact_mod_cast hlt

/-! ### C1 -/

/-- C1: for every group and cursor, the reader-eligible confirmed members
(`confirmedOf`, which lists them in roster order) form, up to
`scheduledQuota`, a prefix of `scheduled` — i.e. they appear in roster
order ahead of anyone pulled in by rotation; a confirmed member never
appears in `bonus`; and while `scheduled` has fewer than `scheduledQuota`
entries no confirmed member is omitted from it. -/
theorem confirmed_first (g : List Participant) (k : Int) (q b : Nat) :
    (confirmedOf g).take q <+: (assignReadersForGroup g k q b).scheduled ∧
    (∀ p ∈ (assignReadersForGroup g k q b).bonus, readingStatus p ≠ .confirmed) ∧
    ((assignReadersForGroup g k q b).scheduled.length < q →
      ∀ p ∈ confirmedOf g, p ∈ (assignReadersForGroup g k q b).scheduled) := by
  rw [assignReadersForGroup]
  by_cases hn : (notConfirmedOf g).length = 0
  · rw [if_pos hn]
    refine ⟨List.prefix_rfl, by simp, ?_⟩
    intro hlen p hp
    show p ∈ scheduled0Of g q
    unfold scheduled0Of at hlen ⊢
    rw [List.length_take] at hlen
    rw [List.take_of_length_le (by omega)]
    exact hp
  · rw [if_neg hn]
    refine ⟨?_, ?_, ?_⟩
    · show (confirmedOf g).take q <+: scheduledOf g k q
      unfold scheduledOf scheduled0Of
      exact List.prefix_append _ _
    · intro p hp
      have h1 : p ∈ notConfirmedOf g := ((bonusOf_spec g k q b).1 p hp).1
      exact (mem_notConfirmedOf.mp h1).2.2
    · intro hlen p hp
      show p ∈ scheduledOf g k q
      unfold scheduledOf at hlen ⊢
      rw [List.length_append] at hlen
      unfold scheduled0Of at hlen ⊢
      rw [List.length_take] at hlen
      apply List.mem_append_left
      rw [List.take_of_length_le (by omega)]
      exact hp

def wAa : Participant := mkP 1 "Aa" (some .yes) (some .confirmed)
def wAb : Participant := mkP 2 "Ab" (some .yes) (some .unassigned)
def wAc : Participant := mkP 3 "Ac" (some .yes) (some .unassigned)
def wAd : Participant := mkP 4 "Ad" (some .yes) (some .unassigned)
def wAe : Participant := mkP 5 "Ae" (some .yes) (some .unassigned)
def wAf : Participant := mkP 6 "Af" (some .yes) (some .unassigned)
def wAg : Participant := mkP 7 "Ag" (some .yes) (some .unassigned)
def wAh : Participant := mkP 8 "Ah" (some .yes) (some .unassigned)

/-- The eight-member witness group: one confirmed, seven unassigned. -/
def wGrpA : List Participant := [wAa, wAb, wAc, wAd, wAe, wAf, wAg, wAh]

def wBen : Participant := mkP 11 "Ben" (some .yes) (some .confirmed)
def wCal : Participant := mkP 12 "Cal" (some .yes) (some .unassigned)

/-- The two-member witness group: one confirmed, one unassigned. -/
def wGrpB : List Participant := [wBen, wCal]

/-- Witness for C1: on the eight-member group the confirmed prefix fact
holds and the bonus member `wAf` is not confirmed; on the two-member group
the scheduled list stays below quota and the confirmed member is in it. -/
theorem confirmed_first_witness :
    ((confirmedOf wGrpA).take 4 <+: (assignReadersForGroup wGrpA 0 4 2).scheduled) ∧
    readingStatus wAf ≠ .confirmed ∧
    wBen ∈ (assignReadersForGroup wGrpB 7 4 2).scheduled :=
  ⟨(confirmed_first wGrpA 0 4 2).1,
   (confirmed_first wGrpA 0 4 2).2.1 wAf (by decide),
   (confirmed_first wGrpB 7 4 2).2.2 (by decide) wBen (by decide)⟩

/-! ### C6 -/

/-- C6: for every group member list with pairwise distinct ids and every
cursor, no participant id occurs twice across the union of the returned
`scheduled` and `bonus` lists. -/
theorem no_duplicate_selection (g : List Participant) (k : Int) (q b : Nat)
    (hid : (g.map (·.id)).Nodup) :
    (((assignReadersForGroup g k q b).scheduled ++
      (assignReadersForGroup g k q b).bonus).map (·.id)).Nodup := by
  rw [assignReadersForGroup]
  by_cases hn : (notConfirmedOf g).length = 0
  · rw [if_pos hn]
    dsimp only
    rw [List.append_nil]
    exact (List.Sublist.map (fun p : Participant => p.id)
      (List.take_sublist q (confirmedOf g))).nodup (nodup_ids_confirmedOf hid)
  · rw [if_neg hn]
    dsimp only
    obtain ⟨hA1, hA2, hA3, hA4⟩ := fillSOf_spec g k q
    obtain ⟨hB1, hB2⟩ := bonusOf_spec g k q b
    have hs0 : ((scheduled0Of g q).map (·.id)).Nodup :=
      (List.Sublist.map (fun p : Participant => p.id)
        (List.take_sublist q (confirmedOf g))).nodup (nodup_ids_confirmedOf hid)
    unfold scheduledOf
    rw [List.map_append, List.map_append, List.nodup_append, List.nodup_append]
    refine ⟨⟨hs0, hA2, ?_⟩, hB2, ?_⟩
    · intro x hx1 hx2
      obtain ⟨p, hp, hpid⟩ := List.mem_map.mp hx2
      exact (hA1 p hp).2 (hpid ▸ hx1)
    · intro x hx1 hx2
      obtain ⟨p2, hp2, hp2id⟩ := List.mem_map.mp hx2
      rcases List.mem_append.mp hx1 with hx1 | hx1
      · exact (hB1 p2 hp2).2 (hp2id ▸ hA3 x hx1)
      · obtain ⟨p1, hp1, hp1id⟩ := List.mem_map.mp hx1
        apply (hB1 p2 hp2).2
        have hisame : p2.id = p1.id := hp2id.trans hp1id.symm
        rw [hisame]
        exact hA4 p1 hp1

/-- Witness for C6: on the eight-member witness group (with distinct ids)
the six selected ids are pairwise distinct. -/
theorem no_duplicate_selection_witness :
    (((assignReadersForGroup wGrpA 0 4 2).scheduled ++
      (assignReadersForGroup wGrpA 0 4 2).bonus).map (·.id)).Nodup :=
  no_duplicate_selection wGrpA 0 4 2 (by decide)

/-! ### C2 -/

/-- C2 (amended): for a group with pairwise distinct ids, when the
`notConfirmed` list is nonempty the cursor behaves as claimed: if no
non-confirmed person was placed in `scheduled` the cursor is returned
unchanged, and otherwise `nextStartIndex` is one past the position in
`notConfirmed` of the last non-confirmed person placed in `scheduled`,
modulo `n`. When every schedulable member is confirmed (`notConfirmed`
empty) the cursor is not preserved: `nextStartIndex` is `0`. -/
theorem cursor_advance (g : List Participant) (k : Int) (q b : Nat)
    (hid : (g.map (·.id)).Nodup) :
    ((notConfirmedOf g).length = 0 →
      (assignReadersForGroup g k q b).nextStartIndex = 0) ∧
    ((notConfirmedOf g).length ≠ 0 →
      ((assignReadersForGroup g k q b).scheduled.reverse.find?
          (fun p => readingStatus p != .confirmed) = none →
        (assignReadersForGroup g k q b).nextStartIndex = k) ∧
      (∀ p j, (assignReadersForGroup g k q b).scheduled.reverse.find?
          (fun x => readingStatus x != .confirmed) = some p →
        (notConfirmedOf g)[j]? = some p →
        (assignReadersForGroup g k q b).nextStartIndex =
          (((j + 1) % (notConfirmedOf g).length : Nat) : Int))) := by
  by_cases hn : (notConfirmedOf g).length = 0
  · refine ⟨fun _ => ?_, fun h => absurd hn h⟩
    rw [assignReadersForGroup, if_pos hn]
  · refine ⟨fun h => absurd h hn, fun _ => ⟨?_, ?_⟩⟩
    · intro hfind
      rw [assignReadersForGroup, if_neg hn] at hfind ⊢
      dsimp only at hfind ⊢
      unfold nextStartIndexOf
      simp only [hfind]
    · intro p j hfind hj
      rw [assignReadersForGroup, if_neg hn] at hfind ⊢
      dsimp only at hfind ⊢
      unfold nextStartIndexOf
      simp only [hfind]
      have hidx := findIdx_id_of_nodup (nodup_ids_notConfirmedOf hid) hj
      simp only [hidx]

def wBa : Participant := mkP 21 "Ba" (some .yes) (some .confirmed)
def wBb : Participant := mkP 22 "Bb" (some .yes) (some .confirmed)
def wBc : Participant := mkP 23 "Bc" (some .yes) (some .confirmed)
def wBd : Participant := mkP 24 "Bd" (some .yes) (some .confirmed)
def wBe : Participant := mkP 25 "Be" (some .yes) (some .confirmed)
def wBf : Participant := mkP 26 "Bf" (some .yes) (some .unassigned)

/-- The six-member witness group: five confirmed fill the quota, one
unassigned person remains in the rotation list. -/
def wGrpC : List Participant := [wBa, wBb, wBc, wBd, wBe, wBf]

/-- Witness for C2: on `wGrpC` (rotation list nonempty, quota filled by
confirmed people) the cursor comes back unchanged as `3`; on `wGrpB` the
last non-confirmed scheduled person `wCal` sits at position `0` of the
rotation list and the cursor advances to `(0 + 1) % 1 = 0`. -/
theorem cursor_advance_witness :
    (assignReadersForGroup wGrpC 3 4 2).nextStartIndex = 3 ∧
    (assignReadersForGroup wGrpB 7 4 2).nextStartIndex = (((0 + 1) % 1 : Nat) : Int) :=
  ⟨((cursor_advance wGrpC 3 4 2 (by decide)).2 (by decide)).1 (by decide),
   ((cursor_advance wGrpB 7 4 2 (by decide)).2 (by decide)).2 wCal 0
     (by decide) (by decide)⟩

def wAnn : Participant := mkP 31 "Ann" (some .yes) (some .confirmed)

/-- Counterexample to C2 as stated: with a single attending confirmed
member every schedulable member is confirmed, zero non-confirmed people
were selected, yet the cursor `5` is not returned unchanged — the
code resets it to `0`. -/
theorem cursor_advance_cex :
    (assignReadersForGroup [wAnn] 5 4 2).scheduled = [wAnn] ∧
    readingStatus wAnn = .confirmed ∧
    (assignReadersForGroup [wAnn] 5 4 2).nextStartIndex = 0 ∧
    (assignReadersForGroup [wAnn] 5 4 2).nextStartIndex ≠ 5 := by decide

/-! ### C7 -/

/-- The circular walk equals a window of the rotated list, as long as the
start slot is valid and at most `list.length` elements are taken. -/
theorem takeWithWrapGo_eq_rotate {α : Type} (l : List α) :
    ∀ (m idx : Nat), idx < l.length → m ≤ l.length →
      takeWithWrapGo l idx m = (l.rotate idx).take m := by
  intro m
  induction m with
  | zero =>
    intro idx _ _
    simp [takeWithWrapGo]
  | succ m ih =>
    intro idx hidx hm
    have hn : 0 < l.length := Nat.lt_of_le_of_lt (Nat.zero_le _) hidx
    have hrot : l.rotate idx = l[idx] :: (List.drop (idx + 1) l ++ List.take idx l) := by
      rw [List.rotate_eq_drop_append_take (Nat.le_of_lt hidx),
        List.drop_eq_getElem_cons hidx, List.cons_append]
    simp only [takeWithWrapGo, List.getElem?_eq_getElem hidx]
    rw [hrot, List.take_succ_cons]
    congr 1
    rw [ih ((idx + 1) % l.length) (Nat.mod_lt _ hn) (le_trans (Nat.le_succ m) hm)]
    rcases Nat.lt_or_ge (idx + 1) l.length with hlt | hge
    · rw [Nat.mod_eq_of_lt hlt, List.rotate_eq_drop_append_take (Nat.le_of_lt hlt),
        List.take_succ, List.getElem?_eq_getElem hidx]
      rw [show Option.toList (some l[idx]) = [l[idx]] from rfl, ← List.append_assoc]
      rw [List.take_append_of_le_length ?hlen]
      case hlen =>
        rw [List.length_append, List.length_drop, List.length_take]
        omega
    · have hidx1 : idx + 1 = l.length := by omega
      rw [hidx1, Nat.mod_self, List.rotate_zero, List.drop_length, List.nil_append,
        List.take_take, Nat.min_eq_left (by omega)]

/-- C7: `takeWithWrap list startIndex count` never returns more than
`list.length` or `count` elements; when `count` is positive it returns
exactly `min count n` elements, starting at the element at position
`startIndex mod n` (normalised to be non-negative); when `count ≤ n` it
never repeats an element (it is a sub-permutation of the list), and when
`count = n` it returns each element exactly once (a permutation). -/
theorem takeWithWrap_spec {α : Type} (list : List α) (startIndex count : Int) :
    (takeWithWrap list startIndex count).length ≤ list.length ∧
    (takeWithWrap list startIndex count).length ≤ count.toNat ∧
    (0 < count →
      (takeWithWrap list startIndex count).length = min count.toNat list.length) ∧
    (0 < list.length → 0 < count →
      (takeWithWrap list startIndex count).head?
        = list[(startIndex % (list.length : Int)).toNat]?) ∧
    (count ≤ (list.length : Int) →
      (takeWithWrap list startIndex count).Subperm list) ∧
    (count = (list.length : Int) →
      (takeWithWrap list startIndex count).Perm list) := by
  unfold takeWithWrap
  by_cases h : list.length = 0 ∨ count ≤ 0
  · rw [if_pos h]
    refine ⟨Nat.zero_le _, Nat.zero_le _, ?_, ?_, fun _ => List.nil_subperm, ?_⟩
    · intro hc
      rcases h with h | h
      · simp [h]
      · omega
    · intro hl hc
      rcases h with h | h
      · omega
      · omega
    · intro hc
      rcases h with h | h
      · rw [List.length_eq_zero.mp h]
      · rw [List.length_eq_zero.mp (by omega : list.length = 0)]
  · rw [if_neg h]
    push_neg at h
    obtain ⟨hn, hc⟩ := h
    have hn' : 0 < list.length := Nat.pos_of_ne_zero hn
    have hs : jsModNat startIndex list.length < list.length :=
      jsModNat_lt startIndex list.length hn'
    have hmn : min count.toNat list.length ≤ list.length := Nat.min_le_right _ _
    rw [takeWithWrapGo_eq_rotate list _ _ hs hmn]
    have hlen : ((list.rotate (jsModNat startIndex list.length)).take
        (min count.toNat list.length)).length = min count.toNat list.length := by
      rw [List.length_take, List.length_rotate]
      omega
    refine ⟨?_, ?_, fun _ => hlen, ?_, ?_, ?_⟩
    · rw [hlen]; exact hmn
    · rw [hlen]; exact Nat.min_le_left _ _
    · intro _ hcpos
      have hm0 : min count.toNat list.length ≠ 0 := by omega
      rw [List.head?_take, if_neg hm0,
        List.rotate_eq_drop_append_take (Nat.le_of_lt hs), List.head?_append,
        List.head?_drop, List.getElem?_eq_getElem hs]
      have hjs : jsModNat startIndex list.length
          = (startIndex % (list.length : Int)).toNat := by
        have := jsModNat_eq_emod startIndex list.length hn'
        omega
      rw [← hjs, List.getElem?_eq_getElem hs]
      rfl
    · intro hcle
      exact (List.take_sublist _ _).subperm.trans (List.rotate_perm _ _).subperm
    · intro hceq
      have hcn : count.toNat = list.length := by omega
      rw [hcn, Nat.min_self,
        List.take_of_length_le (by simp [List.length_rotate])]
      exact List.rotate_perm _ _

/-- Witness for C7: a three-element list, start index `-4`, count `3`:
full length, head at the normalised start, no repetition, and a
permutation of the list. -/
theorem takeWithWrap_spec_witness :
    (takeWithWrap [wAa, wAb, wAc] (-4) 3).length
      = min (Int.toNat 3) [wAa, wAb, wAc].length ∧
    (takeWithWrap [wAa, wAb, wAc] (-4) 3).head?
      = [wAa, wAb, wAc][((-4 : Int) % (([wAa, wAb, wAc].length : Nat) : Int)).toNat]? ∧
    (takeWithWrap [wAa, wAb, wAc] (-4) 3).Subperm [wAa, wAb, wAc] ∧
    (takeWithWrap [wAa, wAb, wAc] (-4) 3).Perm [wAa, wAb, wAc] :=
  ⟨(takeWithWrap_spec [wAa, wAb, wAc] (-4) 3).2.2.1 (by decide),
   (takeWithWrap_spec [wAa, wAb, wAc] (-4) 3).2.2.2.1 (by decide) (by decide),
   (takeWithWrap_spec [wAa, wAb, wAc] (-4) 3).2.2.2.2.1 (by decide),
   (takeWithWrap_spec [wAa, wAb, wAc] (-4) 3).2.2.2.2.2 (by decide)⟩

/-! ### Schedulability of selected readers -/

theorem schedulable_split {p : Participant} (h : isSchedulableThisWeek p = true) :
    isAttending p = true ∧ readingStatus p ≠ .deferred := by
  unfold isSchedulableThisWeek at h
  rw [Bool.and_eq_true, bne_iff_ne] at h
  exact h

theorem assignReaders_scheduled_schedulable {g : List Participant} {k : Int}
    {q b : Nat} {p : Participant}
    (hp : p ∈ (assignReadersForGroup g k q b).scheduled) :
    isSchedulableThisWeek p = true := by
  rw [assignReadersForGroup] at hp
  by_cases hn : (notConfirmedOf g).length = 0
  · rw [if_pos hn] at hp
    dsimp only at hp
    exact (mem_confirmedOf.mp (scheduled0Of_mem hp)).2.1
  · rw [if_neg hn] at hp
    dsimp only at hp
    unfold scheduledOf at hp
    rcases List.mem_append.mp hp with hp | hp
    · exact (mem_confirmedOf.mp (scheduled0Of_mem hp)).2.1
    · exact (mem_notConfirmedOf.mp (((fillSOf_spec g k q).1 p hp).1)).2.1

theorem assignReaders_bonus_schedulable {g : List Participant} {k : Int}
    {q b : Nat} {p : Participant}
    (hp : p ∈ (assignReadersForGroup g k q b).bonus) :
    isSchedulableThisWeek p = true := by
  rw [assignReadersForGroup] at hp
  by_cases hn : (notConfirmedOf g).length = 0
  · rw [if_pos hn] at hp
    dsimp only at hp
    cases hp
  · rw [if_neg hn] at hp
    dsimp only at hp
    exact (mem_notConfirmedOf.mp (((bonusOf_spec g k q b).1 p hp).1)).2.1

theorem getUpNext_some_spec {g : List Participant} {p : Participant}
    (h : getUpNext g = some p) :
    isAttending p = true ∧ readingStatus p ≠ .deferred := by
  unfold getUpNext at h
  cases hf : (g.filter isAttending).find? (fun x => readingStatus x == .pending) with
  | some pd =>
    simp only [hf] at h
    have hpd : pd = p := Option.some.inj h
    subst hpd
    have h1 : readingStatus pd = .pending := by
      have := List.find?_some hf
      simpa using this
    have h2 : pd ∈ g.filter isAttending := List.mem_of_find?_eq_some hf
    refine ⟨(List.mem_filter.mp h2).2, ?_⟩
    rw [h1]
    intro hcon
    cases hcon
  | none =>
    simp only [hf] at h
    have hmem := List.mem_of_mem_head? h
    rw [(sortRoster_perm _).mem_iff, List.mem_filter] at hmem
    obtain ⟨hmem1, _⟩ := hmem
    rw [List.mem_filter] at hmem1
    exact schedulable_split hmem1.2

/-! ### C3 -/

/-- C3: for every roster, cursor and shuffle outcome, no participant whose
effective reading status is `deferred` appears in any scheduled list, any
bonus list, or as a group's up-next. -/
theorem deferred_exclusion (sh : List Participant → List Participant)
    (participants : List Participant) (rotation : Option RotationState)
    (p : Participant)
    (hp : p ∈ (makeGroups sh participants rotation).readersTable.scheduled ++
      (makeGroups sh participants rotation).readersTable.bonus ++
      (makeGroups sh participants rotation).readersLounge.scheduled ++
      (makeGroups sh participants rotation).readersLounge.bonus ++
      (makeGroups sh participants rotation).upNextTable.toList ++
      (makeGroups sh participants rotation).upNextLounge.toList) :
    readingStatus p ≠ .deferred := by
  rw [makeGroups] at hp
  by_cases h0 : (participants.filter isAttending).length = 0
  · rw [if_pos h0] at hp
    simp at hp
  · rw [if_neg h0] at hp
    by_cases h8 : (participants.filter isAttending).length ≤ 8
    · rw [if_pos h8] at hp
      dsimp only at hp
      simp only [List.append_nil, List.mem_append, Option.mem_toList,
        Option.mem_def, List.not_mem_nil, or_false, false_or,
        Option.toList_none, reduceCtorEq] at hp
      rcases hp with (hp | hp) | hp
      · exact (schedulable_split (assignReaders_scheduled_schedulable hp)).2
      · exact (schedulable_split (assignReaders_bonus_schedulable hp)).2
      · exact (getUpNext_some_spec hp).2
    · rw [if_neg h8] at hp
      dsimp only at hp
      simp only [List.append_nil, List.mem_append, Option.mem_toList,
        Option.mem_def, List.not_mem_nil, or_false, false_or,
        Option.toList_none, reduceCtorEq] at hp
      rcases hp with ((((hp | hp) | hp) | hp) | hp) | hp
      · exact (schedulable_split (assignReaders_scheduled_schedulable hp)).2
      · exact (schedulable_split (assignReaders_bonus_schedulable hp)).2
      · exact (schedulable_split (assignReaders_scheduled_schedulable hp)).2
      · exact (schedulable_split (assignReaders_bonus_schedulable hp)).2
      · exact (getUpNext_some_spec hp).2
      · exact (getUpNext_some_spec hp).2

/-- Witness for C3: the confirmed member `wBen` is selected on the
two-member group (identity shuffle outcome) and indeed is not deferred. -/
theorem deferred_exclusion_witness :
    readingStatus wBen ≠ .deferred :=
  deferred_exclusion (fun l => l) wGrpB none wBen (by decide)

/-! ### C8 -/

theorem attending_filter_fusion (g : List Participant) :
    ((g.filter isAttending).filter isSchedulableThisWeek).filter
      (fun p => readingStatus p != .confirmed)
    = g.filter (fun p => isSchedulableThisWeek p
        && (readingStatus p != .confirmed)) := by
  rw [List.filter_filter, List.filter_filter]
  apply List.filter_congr
  intro x _
  cases h : isAttending x <;>
    simp [isSchedulableThisWeek, h, Bool.and_comm]

theorem upnext_find_eq (g : List Participant) :
    (g.filter isAttending).find? (fun p => readingStatus p == .pending)
      = (g.filter (fun p => isAttending p
          && (readingStatus p == .pending))).head? := by
  rw [find?_eq_head?_filter, List.filter_filter]
  congr 1
  apply List.filter_congr
  intro x _
  exact Bool.and_comm _ _

/-- C8: if some attending member is pending, up-next is such a member (the
first one in list order); otherwise up-next is the head of the sorted
schedulable non-confirmed members; and up-next is null exactly when
neither kind of candidate exists. -/
theorem upnext_rule (g : List Participant) :
    (g.filter (fun p => isAttending p && (readingStatus p == .pending)) ≠ [] →
      ∃ p, getUpNext g = some p ∧ p ∈ g ∧ isAttending p = true ∧
        readingStatus p = .pending) ∧
    (g.filter (fun p => isAttending p && (readingStatus p == .pending)) = [] →
      getUpNext g = (sortRoster (g.filter
        (fun p => isSchedulableThisWeek p
          && (readingStatus p != .confirmed)))).head?) ∧
    (getUpNext g = none ↔
      (g.filter (fun p => isAttending p && (readingStatus p == .pending)) = [] ∧
       g.filter (fun p => isSchedulableThisWeek p
         && (readingStatus p != .confirmed)) = [])) := by
  refine ⟨?_, ?_, ?_⟩
  · intro hne
    cases hpf : g.filter (fun p => isAttending p && (readingStatus p == .pending)) with
    | nil => exact absurd hpf hne
    | cons a t =>
      refine ⟨a, ?_, ?_⟩
      · simp only [getUpNext, upnext_find_eq, hpf, List.head?_cons]
      · have ha : a ∈ g.filter (fun p => isAttending p && (readingStatus p == .pending)) := by
          rw [hpf]
          exact List.mem_cons_self a t
        rw [List.mem_filter] at ha
        obtain ⟨h1, h2⟩ := ha
        rw [Bool.and_eq_true] at h2
        exact ⟨h1, h2.1, beq_iff_eq.mp h2.2⟩
  · intro hpe
    simp only [getUpNext, upnext_find_eq, hpe, List.head?_nil]
    rw [attending_filter_fusion]
  · constructor
    · intro hnone
      cases hpf : g.filter (fun p => isAttending p && (readingStatus p == .pending)) with
      | cons a t =>
        simp only [getUpNext, upnext_find_eq, hpf, List.head?_cons] at hnone
        cases hnone
      | nil =>
        simp only [getUpNext, upnext_find_eq, hpf, List.head?_nil] at hnone
        rw [attending_filter_fusion, List.head?_eq_none_iff] at hnone
        refine ⟨rfl, ?_⟩
        have hperm := sortRoster_perm (g.filter
          (fun p => isSchedulableThisWeek p && (readingStatus p != .confirmed)))
        rw [hnone] at hperm
        exact (hperm.symm.eq_nil)
    · rintro ⟨h1, h2⟩
      simp only [getUpNext, upnext_find_eq, h1, List.head?_nil]
      rw [attending_filter_fusion, h2]
      rfl

def wDee : Participant := mkP 41 "Dee" (some .yes) (some .pending)

/-- The witness group with a pending member. -/
def wGrpD : List Participant := [wBen, wDee]

def wNog : Participant := mkP 42 "Ned" (some .no) (some .unassigned)

/-- Witness for C8: with a pending member present, up-next is a pending
attending member; with none pending, up-next is the sorted head of the
non-confirmed schedulables; with no candidates at all, up-next is null. -/
theorem upnext_rule_witness :
    (∃ p, getUpNext wGrpD = some p ∧ p ∈ wGrpD ∧ isAttending p = true ∧
      readingStatus p = .pending) ∧
    getUpNext wGrpB = (sortRoster (wGrpB.filter
      (fun p => isSchedulableThisWeek p
        && (readingStatus p != .confirmed)))).head? ∧
    getUpNext [wNog] = none :=
  ⟨(upnext_rule wGrpD).1 (by decide),
   (upnext_rule wGrpB).2.1 (by decide),
   ((upnext_rule [wNog]).2.2).mpr ⟨by decide, by decide⟩⟩

/-! ### C9 -/

/-- C9: with zero attending participants `makeGroups` returns a
well-formed result: empty seating groups, empty scheduled and bonus lists
for both groups, null up-next for both groups, and the populated error
string. -/
theorem zero_attendees (sh : List Participant → List Participant)
    (participants : List Participant) (rotation : Option RotationState)
    (h : participants.filter isAttending = []) :
    makeGroups sh participants rotation =
      { table := [], lounge := [],
        error := some "No attendees for this week.",
        readersTable := ⟨[], []⟩, readersLounge := ⟨[], []⟩,
        upNextTable := none, upNextLounge := none } := by
  simp [makeGroups, h]

/-- Witness for C9: a roster whose only member answered `no`. -/
theorem zero_attendees_witness :
    makeGroups (fun l => l) [wNog] none =
      { table := [], lounge := [],
        error := some "No attendees for this week.",
        readersTable := ⟨[], []⟩, readersLounge := ⟨[], []⟩,
        upNextTable := none, upNextLounge := none } :=
  zero_attendees (fun l => l) [wNog] none (by decide)

/-! ### C4 -/

theorem dealIntoGroups_mem :
    ∀ (l : List Participant) (acc : List Participant × List Participant)
      (x : Participant),
      (x ∈ (dealIntoGroups l acc).1 ∨ x ∈ (dealIntoGroups l acc).2) ↔
        (x ∈ l ∨ x ∈ acc.1 ∨ x ∈ acc.2)
  | [], acc, x => by
    simp only [dealIntoGroups]
    simp
  | p :: rest, (lounge, table), x => by
    simp only [dealIntoGroups]
    by_cases hc : lounge.length ≤ table.length
    · rw [if_pos hc, dealIntoGroups_mem rest (lounge ++ [p], table) x]
      simp only [List.mem_append, List.mem_cons, List.mem_singleton]
      tauto
    · rw [if_neg hc, dealIntoGroups_mem rest (lounge, table ++ [p]) x]
      simp only [List.mem_append, List.mem_cons, List.mem_singleton]
      tauto

def wMia : Participant := mkP 51 "Mia" (some .maybe) (some .unassigned)

/-- Counterexample to C4 as stated: a participant whose attendance is
`maybe` is seated by `makeGroups` (at the table), so seating is not
restricted to attendance exactly `yes`. -/
theorem seating_policy_cex :
    wMia ∈ (makeGroups (fun l => l) [wMia] none).table ∧
    wMia.attendance = some .maybe := by decide

/-- C4 (amended): `makeGroups` seats a participant (in table or lounge)
if and only if their attendance is not exactly `no` — the permissive
policy of the code, not the strict only-`yes` policy the spec recommends. -/
theorem seating_policy (sh : List Participant → List Participant)
    (participants : List Participant) (rotation : Option RotationState)
    (p : Participant) (hsh : ∀ l, (sh l).Perm l) (hp : p ∈ participants) :
    (p ∈ (makeGroups sh participants rotation).table ∨
     p ∈ (makeGroups sh participants rotation).lounge) ↔
      p.attendance.getD .unknown ≠ .no := by
  have hatt : isAttending p = true ↔ p.attendance.getD .unknown ≠ .no := by
    unfold isAttending
    rw [bne_iff_ne]
  rw [makeGroups]
  by_cases h0 : (participants.filter isAttending).length = 0
  · rw [if_pos h0]
    dsimp only
    constructor
    · rintro (h | h) <;> simp at h
    · intro hne
      exfalso
      have hmem : p ∈ participants.filter isAttending :=
        List.mem_filter.mpr ⟨hp, hatt.mpr hne⟩
      rw [List.length_eq_zero.mp h0] at hmem
      simp at hmem
  · by_cases h8 : (participants.filter isAttending).length ≤ 8
    · rw [if_neg h0, if_pos h8]
      dsimp only
      constructor
      · rintro (h | h)
        · have hmem := (hsh _).mem_iff.mp h
          exact hatt.mp (List.mem_filter.mp hmem).2
        · simp at h
      · intro hne
        left
        exact (hsh _).mem_iff.mpr (List.mem_filter.mpr ⟨hp, hatt.mpr hne⟩)
    · rw [if_neg h0, if_neg h8]
      dsimp only
      constructor
      · rintro (h | h)
        · have hmem := (dealIntoGroups_mem
            (sh (participants.filter isAttending)) ([], []) p).mp (Or.inr h)
          rcases hmem with hm | hm | hm
          · have := (hsh _).mem_iff.mp hm
            exact hatt.mp (List.mem_filter.mp this).2
          · simp at hm
          · simp at hm
        · have hmem := (dealIntoGroups_mem
            (sh (participants.filter isAttending)) ([], []) p).mp (Or.inl h)
          rcases hmem with hm | hm | hm
          · have := (hsh _).mem_iff.mp hm
            exact hatt.mp (List.mem_filter.mp this).2
          · simp at hm
          · simp at hm
      · intro hne
        have hmem : p ∈ sh (participants.filter isAttending) :=
          (hsh _).mem_iff.mpr (List.mem_filter.mpr ⟨hp, hatt.mpr hne⟩)
        have := (dealIntoGroups_mem
          (sh (participants.filter isAttending)) ([], []) p).mpr (Or.inl hmem)
        rcases this with h | h
        · right; exact h
        · left; exact h

/-- Witness for C4 (amended): the `maybe` participant is seated and indeed
has attendance not equal to `no`. -/
theorem seating_policy_witness :
    (wMia ∈ (makeGroups (fun l => l) [wMia] none).table ∨
     wMia ∈ (makeGroups (fun l => l) [wMia] none).lounge) ↔
      wMia.attendance.getD .unknown ≠ .no :=
  seating_policy (fun l => l) [wMia] none wMia (fun l => List.Perm.refl l)
    (by decide)

/-! ### C5 -/

def wPia : Participant := mkP 61 "Pia" (some .yes) (some .pending)
def wRia : Participant := mkP 62 "Ria" (some .yes) (some .pending)

/-- Counterexample to C5 as stated: with two pending attending members,
two shuffle outcomes (identity and reversal, both permutations of the
seated list) give different `upNext` values, so up-next is not
shuffle-independent. -/
theorem shuffle_independence_cex :
    ([wPia, wRia].reverse).Perm [wPia, wRia] ∧
    (makeGroups (fun l => l) [wPia, wRia] none).upNextTable ≠
      (makeGroups (fun l => l.reverse) [wPia, wRia] none).upNextTable := by
  decide

theorem assignReaders_perm {g1 g2 : List Participant} (h : g1.Perm g2)
    (hid : (g1.map (·.id)).Nodup) (k : Int) (q b : Nat) :
    assignReadersForGroup g1 k q b = assignReadersForGroup g2 k q b := by
  have hroster : groupRoster g1 = groupRoster g2 := by
    unfold groupRoster
    apply sortRoster_eq_of_perm (h.filter _)
    exact (List.Sublist.map (fun p : Participant => p.id)
      (List.filter_sublist g1)).nodup hid
  have hconf : confirmedOf g1 = confirmedOf g2 := by
    unfold confirmedOf
    rw [hroster]
  have hnc : notConfirmedOf g1 = notConfirmedOf g2 := by
    unfold notConfirmedOf
    rw [hroster]
  unfold assignReadersForGroup scheduledOf bonusOf fillSOf scheduled0Of
  rw [hconf, hnc]

theorem getUpNext_perm {g1 g2 : List Participant} (h : g1.Perm g2)
    (hid : (g1.map (·.id)).Nodup)
    (hpend : (g1.filter (fun p => isAttending p
      && (readingStatus p == .pending))).length ≤ 1) :
    getUpNext g1 = getUpNext g2 := by
  have hpf : g1.filter (fun p => isAttending p && (readingStatus p == .pending))
      = g2.filter (fun p => isAttending p && (readingStatus p == .pending)) := by
    have hperm := h.filter (fun p => isAttending p && (readingStatus p == .pending))
    cases hc : g1.filter (fun p => isAttending p && (readingStatus p == .pending)) with
    | nil =>
      rw [hc] at hperm
      rw [(hperm.symm).eq_nil]
    | cons a t =>
      rw [hc] at hperm hpend
      have ht : t = [] := by
        rw [List.length_cons] at hpend
        exact List.length_eq_zero.mp (by omega)
      subst ht
      rw [(List.perm_singleton.mp hperm.symm)]
  have hcand : sortRoster (g1.filter (fun p => isSchedulableThisWeek p
        && (readingStatus p != .confirmed)))
      = sortRoster (g2.filter (fun p => isSchedulableThisWeek p
        && (readingStatus p != .confirmed))) := by
    apply sortRoster_eq_of_perm (h.filter _)
    exact (List.Sublist.map (fun p : Participant => p.id)
      (List.filter_sublist g1)).nodup hid
  simp only [getUpNext, upnext_find_eq]
  rw [hpf]
  simp only [attending_filter_fusion]
  rw [hcand]

/-- C5 (amended): with at most 8 attendees (the single-group case), any
two shuffle outcomes give identical scheduled and bonus lists for both
groups; if moreover at most one attending member is pending, the up-next
values also coincide. (As stated the claim fails: with two pending
members the shuffle picks which of them is up next, and with more than 8
attendees the shuffle decides the seating split and hence the per-group
reader lists.) -/
theorem shuffle_independence (sh1 sh2 : List Participant → List Participant)
    (participants : List Participant) (rotation : Option RotationState)
    (h1 : ∀ l, (sh1 l).Perm l) (h2 : ∀ l, (sh2 l).Perm l)
    (hid : (participants.map (·.id)).Nodup)
    (h8 : (participants.filter isAttending).length ≤ 8) :
    (makeGroups sh1 participants rotation).readersTable
      = (makeGroups sh2 participants rotation).readersTable ∧
    (makeGroups sh1 participants rotation).readersLounge
      = (makeGroups sh2 participants rotation).readersLounge ∧
    ((participants.filter (fun p => isAttending p
        && (readingStatus p == .pending))).length ≤ 1 →
      (makeGroups sh1 participants rotation).upNextTable
        = (makeGroups sh2 participants rotation).upNextTable ∧
      (makeGroups sh1 participants rotation).upNextLounge
        = (makeGroups sh2 participants rotation).upNextLounge) := by
  rw [makeGroups, makeGroups]
  by_cases h0 : (participants.filter isAttending).length = 0
  · rw [if_pos h0, if_pos h0]
    exact ⟨rfl, rfl, fun _ => ⟨rfl, rfl⟩⟩
  · rw [if_neg h0, if_neg h0, if_pos h8, if_pos h8]
    dsimp only
    have hperm : (sh1 (participants.filter isAttending)).Perm
        (sh2 (participants.filter isAttending)) :=
      (h1 _).trans (h2 _).symm
    have hids : ((participants.filter isAttending).map (·.id)).Nodup :=
      (List.Sublist.map (fun p : Participant => p.id)
        (List.filter_sublist participants)).nodup hid
    have hid2 : ((sh1 (participants.filter isAttending)).map (·.id)).Nodup :=
      (((h1 (participants.filter isAttending)).map (fun p : Participant => p.id)).symm).nodup
        hids
    refine ⟨?_, rfl, ?_⟩
    · rw [assignReaders_perm hperm hid2]
    · intro hpend
      refine ⟨?_, rfl⟩
      apply getUpNext_perm hperm hid2
      have hlen : ((sh1 (participants.filter isAttending)).filter
          (fun p => isAttending p && (readingStatus p == .pending))).length
          = (participants.filter (fun p => isAttending p
              && (readingStatus p == .pending))).length := by
        rw [((h1 (participants.filter isAttending)).filter
          (fun p => isAttending p && (readingStatus p == .pending))).length_eq]
        rw [List.filter_filter]
        congr 1
        apply List.filter_congr
        intro x _
        cases hax : isAttending x <;> simp [hax]
      omega

/-- Witness for C5 (amended): on the two-member group with one pending
member, identity and reversal shuffle outcomes give the same readers and
the same up-next. -/
theorem shuffle_independence_witness :
    (makeGroups (fun l => l) wGrpD none).readersTable
      = (makeGroups (fun l => l.reverse) wGrpD none).readersTable ∧
    (makeGroups (fun l => l) wGrpD none).upNextTable
      = (makeGroups (fun l => l.reverse) wGrpD none).upNextTable :=
  ⟨(shuffle_independence (fun l => l) (fun l => l.reverse) wGrpD none
      (fun l => List.Perm.refl l) (fun l => List.reverse_perm l)
      (by decide) (by decide)).1,
   ((shuffle_independence (fun l => l) (fun l => l.reverse) wGrpD none
      (fun l => List.Perm.refl l) (fun l => List.reverse_perm l)
      (by decide) (by decide)).2.2 (by decide)).1⟩
